import Mathlib

/-! naive-gossip (liarslie): vote aggregation.

A shallow embedding of the vote aggregators of `peer/discovery.go`
(`computeNetworkValueExpert`, `computeNetworkValueStandard`, `RunAsStandard`),
of the `kill` command of `cmd/expert.go`, of the `play` command of
`cmd/standard.go`, and of `GetInstance` and `AddAgentsToConfig` of the `reader`
package, together with the properties proved about them.

Go's `int` values that occur here are vote counters and parsed values; they are
embedded as `Int` (a counter is bounded by the number of distinct peers, so it
never reaches the 64-bit limit).
-/

namespace Liarslie

/-! ## Go maps and the vault -/

/-- A Go `map[string]β` as an association list without duplicate keys. -/
abbrev KV (β : Type) := List (String × β)

namespace KV

variable {β : Type}

/-- Lookup `m[k]` with the presence flag: `v, ok := m[k]`. -/
def get (m : KV β) (k : String) : Option β :=
  match m with
  | [] => none
  | (k', v) :: t => if k' = k then some v else get t k

/-- Assignment `m[k] = v`. -/
def set (m : KV β) (k : String) (v : β) : KV β :=
  match m with
  | [] => [(k, v)]
  | (k', v') :: t => if k' = k then (k, v) :: t else (k', v') :: set t k v

/-- Removal of a key. -/
def erase (m : KV β) (k : String) : KV β :=
  match m with
  | [] => []
  | (k', v') :: t => if k' = k then erase t k else (k', v') :: erase t k

/-- The keys held by the map. -/
def keys (m : KV β) : List String := m.map Prod.fst

/-- Presence test `_, ok := m[k]`. -/
def contains (m : KV β) (k : String) : Bool := (get m k).isSome

end KV

/-- Modelled from the spec: the vault (the bitcask store behind
`reader.GetInstance`, an external library), a durable mapping from agent
address to its currently claimed value with the contract
`Get(key) -> (value, found|error)`, `Put`, `Delete`, `Len`. -/
abbrev Vault := KV String

namespace Vault

/-- Vault lookup `db.Get(key)`: `none` is the "not found" error. -/
def Get (db : Vault) (key : String) : Option String := KV.get db key

/-- Vault write `db.Put(key, value)`, last write wins. -/
def Put (db : Vault) (key value : String) : Vault := KV.set db key value

/-- Vault removal `db.Delete(key)`. -/
def Delete (db : Vault) (key : String) : Vault := KV.erase db key

/-- Key count `db.Len()`. -/
def Len (db : Vault) : Nat := db.length

end Vault

/-- Go's `value, _ := db.Get(key)` followed by `string(value)`: the error is
dropped and the nil slice of a miss converts to the empty string. -/
def getIgnoringErr (db : Vault) (key : String) : String := (db.Get key).getD ""

/-- The identity of an agent in the network (`reader.ParticipantSet`). -/
structure ParticipantSet where
  USER : String
  IP : String
deriving DecidableEq, Repr

/-! ## Tally and resolution -/

/-- The tally update shared by both aggregators:
`_, ok := truthMap[v]; if ok { truthMap[v] = truthMap[v] + 1 } else { truthMap[v] = 0 }`. -/
def bump (truthMap : KV Int) (v : String) : KV Int :=
  match truthMap.get v with
  | some c => truthMap.set v (c + 1)
  | none => truthMap.set v 0

/-- Go's map index expression `truthMap[k]`: the zero value when the key is absent. -/
def count (truthMap : KV Int) (k : String) : Int := (truthMap.get k).getD 0

/-- Insertion step of a stable sort: `x` stood before every element of the
sorted tail, so it moves right only past elements strictly less than it. -/
def insertStable {α : Type} (less : α → α → Bool) (x : α) : List α → List α
  | [] => [x]
  | y :: t => if less y x then y :: insertStable less x t else x :: y :: t

/-- Go's `sort.SliceStable(keys, less)`: the stable sort of `keys` by `less`. -/
def SliceStable {α : Type} (less : α → α → Bool) (l : List α) : List α :=
  l.foldr (insertStable less) []

/-- An enumeration of a Go map by `for key := range truthMap`: every key once,
in an order the language leaves unspecified. -/
def RangeOrder (enum : KV Int → List String) : Prop :=
  ∀ m : KV Int, (enum m).Perm m.keys

/-- The tail of both aggregators: collect the keys with `range`, sort them with
`sort.SliceStable` by `truthMap[keys[i]] > truthMap[keys[j]]`, and take the
first key of the sorted slice if there is one. -/
def topKey (enum : KV Int → List String) (truthMap : KV Int) : Option String :=
  (SliceStable (fun a b => decide (count truthMap a > count truthMap b)) (enum truthMap)).head?

/-! ## Standard mode -/

/-- The scanning loop of `computeNetworkValueStandard`,
`for i := 0; i < numKeys; i++`, at index `i` with `remaining` iterations left.
`none` is the run-time panic of `agents[i]` with `i` out of range. -/
def standardLoop (db : Vault) (id : Int) (agents : List ParticipantSet) :
    Nat → Nat → KV Int → Option (KV Int)
  | _, 0, truthMap => some truthMap
  | i, remaining + 1, truthMap =>
    match agents[i]? with
    | none => none
    | some a =>
      let agentValue := getIgnoringErr db a.IP
      if (i : Int) = id then standardLoop db id agents (i + 1) remaining truthMap
      else standardLoop db id agents (i + 1) remaining (bump truthMap agentValue)

/-- The function `computeNetworkValueStandard(id, agents, numAgents)`: scan the
first `db.Len()` roster entries, tally the stored value of every entry but
`id`, and return the first key of the sorted tally, or `"-1"`.
`numAgents` is not read by the source. -/
def computeNetworkValueStandard (enum : KV Int → List String) (db : Vault)
    (id : Int) (agents : List ParticipantSet) (_numAgents : Int) : Option String :=
  let numKeys := db.Len
  match standardLoop db id agents 0 numKeys [] with
  | none => none
  | some truthMap =>
    match topKey enum truthMap with
    | some k => some k
    | none => some "-1"

/-- The function `RunAsStandard(i, agents, numAgents)`. -/
def RunAsStandard (enum : KV Int → List String) (db : Vault)
    (i : Int) (agents : List ParticipantSet) (numAgents : Int) : Option String :=
  computeNetworkValueStandard enum db i agents numAgents

/-! ## Removing an agent -/

/-- The function `reader.GetParticpantIP(config, id)` over the parsed roster:
the address of the first participant named `id`, or the empty string. -/
def GetParticpantIP (agents : List ParticipantSet) (id : String) : String :=
  match agents.find? (fun a => decide (a.USER = id)) with
  | some a => a.IP
  | none => ""

/-- The `kill` command of `cmd/expert.go`: delete the vault entry of the
participant named `id`; the roster file is left as it is. -/
def kill (agents : List ParticipantSet) (db : Vault) (id : String) : Vault :=
  let IP := GetParticpantIP agents id
  if IP.length = 0 then db else db.Delete IP

/-! ## The standard-mode `play` command -/

/-- Value of a string of decimal digits, `none` when a character is no digit. -/
def digitsValue : List Char → Nat → Option Nat
  | [], n => some n
  | c :: cs, n => if c.isDigit then digitsValue cs (n * 10 + (c.toNat - 48)) else none

/-- Go's `strconv.Atoi` on a 64-bit platform, as the pair of its result and
whether the error is nil: an optional sign and one or more decimal digits; a
syntax error yields `0`, a value out of range yields the nearest bound. -/
def Atoi (s : String) : Int × Bool :=
  let cs := s.toList
  let neg := cs.head? = some '-'
  let body := if cs.head? = some '-' ∨ cs.head? = some '+' then cs.tail else cs
  if body = [] then (0, false)
  else
    match digitsValue body 0 with
    | none => (0, false)
    | some n =>
      if neg then
        if n > 2 ^ 63 then (-(2 ^ 63 : Int), false) else (-(n : Int), true)
      else
        if n ≥ 2 ^ 63 then ((2 ^ 63 : Int) - 1, false) else ((n : Int), true)

/-- What `play` prints: the "check your agents config" notice or the computed
network value. -/
inductive Report where
  | noData : Report
  | value : Int → Report
deriving DecidableEq, Repr

/-- The task loop of `play`, the tasks taken one after another, at index `i`
with `remaining` tasks left:
`value, _ := strconv.Atoi(peer.RunAsStandard(i, agents, numAgents));
if truthValue < value { truthValue = value }`.
Task `i` enumerates its tally with `enums i`; `none` is a task that panicked. -/
def playLoop (enums : Nat → KV Int → List String) (db : Vault)
    (agents : List ParticipantSet) (numAgents : Int) : Nat → Nat → Int → Option Int
  | _, 0, truthValue => some truthValue
  | i, remaining + 1, truthValue =>
    match RunAsStandard (enums i) db (i : Int) agents numAgents with
    | none => none
    | some r =>
      let value := (Atoi r).1
      if truthValue < value then playLoop enums db agents numAgents (i + 1) remaining value
      else playLoop enums db agents numAgents (i + 1) remaining truthValue

/-- The `play` command of `cmd/standard.go` on the roster `agents`. -/
def play (enums : Nat → KV Int → List String) (db : Vault)
    (agents : List ParticipantSet) : Option Report :=
  let numAgents := agents.length
  match playLoop enums db agents (numAgents : Int) 0 numAgents (-1) with
  | none => none
  | some truthValue => if truthValue < 0 then some Report.noData else some (Report.value truthValue)

/-! ## Expert mode -/

/-- A gossip message as the aggregator reads it: `m.ReceivedFrom.Pretty()` and
`m.Message.Data`. -/
structure Msg where
  ReceivedFrom : String
  Data : String
deriving DecidableEq, Repr

/-- The local variables of `computeNetworkValueExpert`. -/
structure ExpertState where
  voteCount : Int
  truthMap : KV Int
  peerMap : KV Int
deriving DecidableEq, Repr

/-- How one pass through the body of the `for` loop ends: back to the top of
the loop (`continue`, or falling through to the sleep), or the final `break`
after the optional `db.Put(agent, k)`. -/
inductive Outcome where
  | next : ExpertState → Outcome
  | resolved : ExpertState → Option String → Outcome
deriving DecidableEq, Repr

/-- The closing test of the loop body: `if voteCount == numAgents-1 { ... break }`. -/
def quorumCheck (enum : KV Int → List String) (numAgents : Int) (s : ExpertState) : Outcome :=
  if s.voteCount = numAgents - 1 then Outcome.resolved s (topKey enum s.truthMap)
  else Outcome.next s

/-- One pass through the body of the loop of `computeNetworkValueExpert` for
the host `hID` storing under `agent`; `ev` is the result of `sub.Next(ctx)`,
`none` when it returned an error. -/
def iterate (enum : KV Int → List String) (hID agent : String) (numAgents : Int)
    (db : Vault) (s : ExpertState) (ev : Option Msg) : Outcome :=
  match ev with
  | none => Outcome.next s
  | some m =>
    match db.Get agent with
    | none => Outcome.next s
    | some currentValue =>
      if s.peerMap.contains m.ReceivedFrom then Outcome.next s
      else if hID ≠ m.ReceivedFrom then
        let peerMap := s.peerMap.set m.ReceivedFrom 1
        let voteCount := s.voteCount + 1
        match db.Get m.Data with
        | none => Outcome.next { voteCount := voteCount, truthMap := s.truthMap, peerMap := peerMap }
        | some recvdValue =>
          let truthMap :=
            if currentValue ≠ recvdValue ∧ recvdValue ≠ "0" then bump s.truthMap recvdValue
            else s.truthMap
          quorumCheck enum numAgents { voteCount := voteCount, truthMap := truthMap, peerMap := peerMap }
      else quorumCheck enum numAgents s

/-- The aggregator together with the vault it writes to; `halted` once the
loop has been left. -/
structure Run where
  state : ExpertState
  db : Vault
  halted : Bool
deriving DecidableEq, Repr

/-- The next event reaching the aggregator: nothing happens after the loop was
left, otherwise one pass through the loop body, with the `Put` of a resolving
pass applied to the vault. -/
def runStep (enum : KV Int → List String) (hID agent : String) (numAgents : Int)
    (r : Run) (ev : Option Msg) : Run :=
  if r.halted then r
  else
    match iterate enum hID agent numAgents r.db r.state ev with
    | Outcome.next s => { state := s, db := r.db, halted := false }
    | Outcome.resolved s (some k) => { state := s, db := r.db.Put agent k, halted := true }
    | Outcome.resolved s none => { state := s, db := r.db, halted := true }

/-- The state in which `computeNetworkValueExpert` enters its loop. -/
def initRun (db : Vault) : Run :=
  { state := { voteCount := 0, truthMap := [], peerMap := [] }, db := db, halted := false }

/-- The function `computeNetworkValueExpert` run on the sequence `events` of
results of `sub.Next`, with no other writer to the vault. -/
def computeNetworkValueExpert (enum : KV Int → List String) (hID agent : String)
    (numAgents : Int) (db : Vault) (events : List (Option Msg)) : Run :=
  events.foldl (runStep enum hID agent numAgents) (initRun db)

/-- The senders of the delivered messages other than the host, each once. -/
def distinctPeers (hID : String) (events : List (Option Msg)) : List String :=
  ((events.filterMap (fun ev => ev.map Msg.ReceivedFrom)).filter (fun p => decide (p ≠ hID))).dedup

/-! ## Notions used to state the properties -/

/-- The values stored in the vault under the addresses of the roster entries
other than entry `id`, in roster order. -/
def storedByOthers (db : Vault) (id : Int) (agents : List ParticipantSet) : List String :=
  (agents.enum.filter (fun p => decide ((p.1 : Int) ≠ id))).filterMap (fun p => db.Get p.2.IP)

/-- The strings the loop of `computeNetworkValueStandard` tallies while it
walks the roster entries `l`, the first of which has index `i`. -/
def scanFrom (db : Vault) (id : Int) : Nat → List ParticipantSet → List String
  | _, [] => []
  | i, a :: t =>
    if (i : Int) = id then scanFrom db id (i + 1) t
    else getIgnoringErr db a.IP :: scanFrom db id (i + 1) t

/-! ## Concrete scenarios -/

/-- A participant named `user` listening on TCP port `port`. -/
def agentAt (user : String) (port : String) : ParticipantSet :=
  { USER := user, IP := "/ip4/0.0.0.0/tcp/" ++ port }

/-- Scenario A: five agents. -/
def rosterA : List ParticipantSet :=
  [agentAt "amber" "40001", agentAt "birch" "40002", agentAt "cedar" "40003",
   agentAt "dune" "40004", agentAt "elm" "40005"]

/-- Scenario A: true value 10, the third agent claims 99. -/
def vaultA : Vault :=
  [("/ip4/0.0.0.0/tcp/40001", "10"), ("/ip4/0.0.0.0/tcp/40002", "10"),
   ("/ip4/0.0.0.0/tcp/40003", "99"), ("/ip4/0.0.0.0/tcp/40004", "10"),
   ("/ip4/0.0.0.0/tcp/40005", "10")]

/-- The enumeration of a map in the order its keys were inserted. -/
def enumInsertion (m : KV Int) : List String := m.keys

/-- The enumeration of a map against the order its keys were inserted. -/
def enumReversed (m : KV Int) : List String := m.keys.reverse

/-- A roster of two agents. -/
def rosterTwo : List ParticipantSet := [agentAt "amber" "40001", agentAt "birch" "40002"]

/-- The vault of `rosterTwo` after `amber` was killed. -/
def vaultBirchOnly : Vault := [("/ip4/0.0.0.0/tcp/40002", "10")]

/-- A roster of three agents. -/
def rosterThree : List ParticipantSet :=
  [agentAt "amber" "40001", agentAt "birch" "40002", agentAt "cedar" "40003"]

/-- Three agents that all store 10. -/
def vaultAllTen : Vault :=
  [("/ip4/0.0.0.0/tcp/40001", "10"), ("/ip4/0.0.0.0/tcp/40002", "10"),
   ("/ip4/0.0.0.0/tcp/40003", "10")]

/-- Three agents, true value 10, the third claims 99. -/
def vaultOneLiar : Vault :=
  [("/ip4/0.0.0.0/tcp/40001", "10"), ("/ip4/0.0.0.0/tcp/40002", "10"),
   ("/ip4/0.0.0.0/tcp/40003", "99")]

/-- Five agents whose stored values tie: two store 5, two store 7. -/
def vaultTie : Vault :=
  [("/ip4/0.0.0.0/tcp/40001", "5"), ("/ip4/0.0.0.0/tcp/40002", "5"),
   ("/ip4/0.0.0.0/tcp/40003", "7"), ("/ip4/0.0.0.0/tcp/40004", "7"),
   ("/ip4/0.0.0.0/tcp/40005", "5")]

/-- Two agents that both store the value -5. -/
def vaultNegative : Vault :=
  [("/ip4/0.0.0.0/tcp/40001", "-5"), ("/ip4/0.0.0.0/tcp/40002", "-5")]

/-- Scenario A: the gossip of the four other agents as it reaches `amber`, one
message each, the payload being the sender's address. -/
def gossipToAmber : List (Option Msg) :=
  [some { ReceivedFrom := "QmBirch", Data := "/ip4/0.0.0.0/tcp/40002" },
   some { ReceivedFrom := "QmCedar", Data := "/ip4/0.0.0.0/tcp/40003" },
   some { ReceivedFrom := "QmDune", Data := "/ip4/0.0.0.0/tcp/40004" },
   some { ReceivedFrom := "QmElm", Data := "/ip4/0.0.0.0/tcp/40005" }]

/-- The local variables at the end of a pass through the loop body. -/
def Outcome.state : Outcome → ExpertState
  | Outcome.next s => s
  | Outcome.resolved s _ => s

/-- Gossip reaching `amber` in a network of five: a failed `Next`, duplicates,
a message of `amber` itself, and messages that arrive after the fourth peer. -/
def gossipNoisy : List (Option Msg) :=
  [none,
   some { ReceivedFrom := "QmBirch", Data := "/ip4/0.0.0.0/tcp/40002" },
   some { ReceivedFrom := "QmBirch", Data := "/ip4/0.0.0.0/tcp/40002" },
   some { ReceivedFrom := "QmAmber", Data := "/ip4/0.0.0.0/tcp/40001" },
   some { ReceivedFrom := "QmCedar", Data := "/ip4/0.0.0.0/tcp/40003" },
   some { ReceivedFrom := "QmDune", Data := "/ip4/0.0.0.0/tcp/40004" },
   some { ReceivedFrom := "QmCedar", Data := "/ip4/0.0.0.0/tcp/40003" },
   some { ReceivedFrom := "QmElm", Data := "/ip4/0.0.0.0/tcp/40005" },
   some { ReceivedFrom := "QmBirch", Data := "/ip4/0.0.0.0/tcp/40002" }]

/-- The aggregator of `amber` in a network of three after the vote of `birch`. -/
def runAfterBirch : Run :=
  { state := { voteCount := 1, truthMap := [], peerMap := [("QmBirch", 1)] }
    db := vaultOneLiar
    halted := false }

/-! ## The vault handle -/

/-- Modelled from the spec: the handle of the vault (`*bitcask.Bitcask`, an
external library) as far as its lifetime goes, the flag telling whether
`Close` has been called on it. -/
structure Bitcask where
  closed : Bool
deriving DecidableEq, Repr

/-- The call `bitcask.Open("storage/")`: a fresh handle that has not been
closed, or the nil handle when the store cannot be opened. -/
def Bitcask.Open (openOk : Bool) : Option Bitcask :=
  if openOk then some { closed := false } else none

/-- The call `db.Close()`. -/
def Bitcask.Close (_h : Bitcask) : Bitcask := { closed := true }

/-- The package-level variable `db` of `reader/db.go`, `none` for nil. The
pointer `GetInstance` returns designates this same handle. -/
structure ReaderGlobals where
  db : Option Bitcask
deriving DecidableEq, Repr

/-- The deferred `db.Close()` of `GetInstance`, run when the function returns,
on the handle `db` designated when the `defer` statement was reached. `none` is
the nil dereference of closing a handle that could not be opened. -/
def runDeferredClose (g : ReaderGlobals) : Option ReaderGlobals :=
  match g.db with
  | none => none
  | some h => some { db := some h.Close }

/-- The function `GetInstance()` of `reader/db.go`, one caller at a time: when
`db` is nil, `db, _ = bitcask.Open("storage/")` followed by `defer db.Close()`;
then `return db`, after which the deferred call runs. The result is the
package state after the call, whose `db` is the handle handed to the caller. -/
def GetInstance (openOk : Bool) (g : ReaderGlobals) : Option ReaderGlobals :=
  match g.db with
  | some _ => some g
  | none => runDeferredClose { db := Bitcask.Open openOk }

/-- A number `n` of successive calls of `GetInstance` in one process. -/
def GetInstanceTimes (openOk : Bool) : Nat → ReaderGlobals → Option ReaderGlobals
  | 0, g => some g
  | n + 1, g =>
    match GetInstance openOk g with
    | none => none
    | some g' => GetInstanceTimes openOk n g'

/-! ## Registering agents -/

/-- The loop of `AddAgentsToConfig`, `for i := startIdx; i < endIdx; i++`, at
index `i` with `remaining` iterations left: generate the name from the seed
`i`, take the next port, store the true value for `i <= numTruthSpeakers` and
the false value otherwise, and append the participant to `data`. -/
def addAgentsLoop (nameOf : Int → String) (value falseValue numTruthSpeakers : Int) :
    Int → Nat → Int → List ParticipantSet → Vault → List ParticipantSet × Vault
  | _, 0, _, data, db => (data, db)
  | i, remaining + 1, port, data, db =>
    let newStruct : ParticipantSet :=
      { USER := nameOf i, IP := "/ip4/0.0.0.0/tcp/" ++ toString port }
    let db' :=
      if i ≤ numTruthSpeakers then db.Put newStruct.IP (toString value)
      else db.Put newStruct.IP (toString falseValue)
    addAgentsLoop nameOf value falseValue numTruthSpeakers (i + 1) remaining (port + 1)
      (data ++ [newStruct]) db'

/-- The function `AddAgentsToConfig` of `reader/reader.go` on the roster `data`
parsed from the config file and the vault `db`, returning the roster it writes
back and the vault. The name generator `nameOf`, the random first `port`, and
the two numbers computed in floating point, `numTruthSpeakers` and the false
value `falseValue`, are taken as given. -/
def AddAgentsToConfig (nameOf : Int → String) (port : Int)
    (numAgents value falseValue numTruthSpeakers : Int)
    (data : List ParticipantSet) (db : Vault) : List ParticipantSet × Vault :=
  let numKeys : Int := (db.Len : Int)
  let startIdx : Int := if numKeys > 0 then numKeys + 1 else 0
  let endIdx : Int := if numKeys > 0 then numKeys + numAgents else numAgents
  addAgentsLoop nameOf value falseValue numTruthSpeakers startIdx (endIdx - startIdx).toNat
    port data db

/-- A stand-in name generator: the name of seed `i`. -/
def nameOfSeed (i : Int) : String := "agent-" ++ toString i

end Liarslie

namespace Liarslie

/-! ## Facts about maps -/

namespace KV

variable {β : Type}

theorem get_set_self (m : KV β) (k : String) (v : β) : (m.set k v).get k = some v := by
  induction m with
  | nil => simp [set, get]
  | cons p t ih =>
    obtain ⟨k', v'⟩ := p
    by_cases h : k' = k
    · simp [set, get, h]
    · simp [set, get, h, ih]

theorem get_set_ne (m : KV β) (k k' : String) (v : β) (h : k' ≠ k) :
    (m.set k v).get k' = m.get k' := by
  induction m with
  | nil => simp [set, get, Ne.symm h]
  | cons p t ih =>
    obtain ⟨k₀, v₀⟩ := p
    by_cases h₀ : k₀ = k
    · subst h₀
      simp [set, get, Ne.symm h]
    · by_cases h₁ : k₀ = k'
      · subst h₁
        simp [set, get, h₀]
      · simp [set, get, h₀, h₁, ih]

theorem mem_keys_iff (m : KV β) (k : String) : k ∈ m.keys ↔ (m.get k).isSome = true := by
  induction m with
  | nil => simp [keys, get]
  | cons p t ih =>
    obtain ⟨k₀, v₀⟩ := p
    by_cases h₀ : k₀ = k
    · simp [keys, get, h₀]
    · have ih' : k ∈ List.map Prod.fst t ↔ (get t k).isSome = true := ih
      simp [keys, get, h₀, Ne.symm h₀, ih']

theorem get_eq_none_iff (m : KV β) (k : String) : m.get k = none ↔ k ∉ m.keys := by
  rw [mem_keys_iff]
  cases m.get k <;> simp

theorem keys_set_of_mem (m : KV β) (k : String) (v : β) (h : k ∈ m.keys) :
    (m.set k v).keys = m.keys := by
  induction m with
  | nil => simp [keys] at h
  | cons p t ih =>
    obtain ⟨k₀, v₀⟩ := p
    by_cases h₀ : k₀ = k
    · simp [set, keys, h₀]
    · have ht : k ∈ keys t := by
        simp only [keys, List.map_cons, List.mem_cons] at h
        rcases h with h | h
        · exact absurd h.symm h₀
        · exact h
      have := ih ht
      simp only [keys] at this
      simp [set, keys, h₀, this]

theorem keys_set_of_not_mem (m : KV β) (k : String) (v : β) (h : k ∉ m.keys) :
    (m.set k v).keys = m.keys ++ [k] := by
  induction m with
  | nil => simp [set, keys]
  | cons p t ih =>
    obtain ⟨k₀, v₀⟩ := p
    have h₀ : k₀ ≠ k := by
      intro e
      apply h
      simp [keys, e]
    have ht : k ∉ keys t := by
      intro e
      apply h
      simp only [keys, List.map_cons, List.mem_cons]
      exact Or.inr e
    have := ih ht
    simp only [keys] at this
    simp [set, keys, h₀, this]

theorem mem_keys_set (m : KV β) (k k' : String) (v : β) :
    k' ∈ (m.set k v).keys ↔ k' = k ∨ k' ∈ m.keys := by
  rw [mem_keys_iff, mem_keys_iff]
  by_cases h : k' = k
  · subst h
    simp [get_set_self]
  · simp [get_set_ne _ _ _ _ h, h]

theorem length_set_of_mem (m : KV β) (k : String) (v : β) (h : k ∈ m.keys) :
    (m.set k v).length = m.length := by
  have := congrArg List.length (keys_set_of_mem m k v h)
  simpa [keys] using this

theorem length_set_of_not_mem (m : KV β) (k : String) (v : β) (h : k ∉ m.keys) :
    (m.set k v).length = m.length + 1 := by
  have := congrArg List.length (keys_set_of_not_mem m k v h)
  simpa [keys] using this

theorem nodup_keys_set (m : KV β) (k : String) (v : β) (h : m.keys.Nodup) :
    (m.set k v).keys.Nodup := by
  by_cases hk : k ∈ m.keys
  · rw [keys_set_of_mem m k v hk]
    exact h
  · rw [keys_set_of_not_mem m k v hk]
    exact List.Nodup.append h (List.nodup_singleton k) (by simpa using hk)

theorem get_erase_self (m : KV β) (k : String) : (m.erase k).get k = none := by
  induction m with
  | nil => simp [erase, get]
  | cons p t ih =>
    obtain ⟨k₀, v₀⟩ := p
    by_cases h₀ : k₀ = k
    · simp [erase, h₀, ih]
    · simp [erase, get, h₀, ih]

theorem get_erase_ne (m : KV β) (k k' : String) (h : k' ≠ k) :
    (m.erase k).get k' = m.get k' := by
  induction m with
  | nil => simp [erase, get]
  | cons p t ih =>
    obtain ⟨k₀, v₀⟩ := p
    by_cases h₀ : k₀ = k
    · subst h₀
      simp [erase, get, Ne.symm h, ih]
    · by_cases h₁ : k₀ = k'
      · subst h₁
        simp [erase, get, h₀]
      · simp [erase, get, h₀, h₁, ih]

end KV

/-! ## Facts about the tally -/

theorem get_bump_self (m : KV Int) (v : String) :
    (bump m v).get v = some (match m.get v with | some c => c + 1 | none => 0) := by
  unfold bump
  cases h : m.get v <;> simp [KV.get_set_self]

theorem get_bump_ne (m : KV Int) (v k : String) (h : k ≠ v) :
    (bump m v).get k = m.get k := by
  unfold bump
  cases hv : m.get v <;> simp [KV.get_set_ne _ _ _ _ h]

theorem mem_keys_bump (m : KV Int) (v k : String) :
    k ∈ (bump m v).keys ↔ k = v ∨ k ∈ m.keys := by
  unfold bump
  cases hv : m.get v <;> simp [KV.mem_keys_set]

theorem nodup_keys_bump (m : KV Int) (v : String) (h : m.keys.Nodup) :
    (bump m v).keys.Nodup := by
  unfold bump
  cases hv : m.get v <;> simp [KV.nodup_keys_set _ _ _ h]

/-- The tally after the votes `vs`: a value seen `c > 0` times holds `c - 1`,
a value never seen is absent. -/
theorem get_foldl_bump (vs : List String) (k : String) :
    (vs.foldl bump []).get k = if k ∈ vs then some ((vs.count k : Int) - 1) else none := by
  induction vs using List.reverseRecOn with
  | nil => simp [KV.get]
  | append_singleton l v ih =>
    rw [List.foldl_append]
    simp only [List.foldl_cons, List.foldl_nil]
    by_cases h : k = v
    · subst h
      rw [get_bump_self, ih]
      by_cases hm : k ∈ l
      · simp [hm, List.count_append]
      · simp [hm, List.count_append, List.count_eq_zero_of_not_mem hm]
    · rw [get_bump_ne _ _ _ h, ih]
      have hc : List.count k [v] = 0 := by
        simp [List.count_singleton, Ne.symm h]
      simp [h, List.count_append, hc]

theorem mem_keys_foldl_bump (vs : List String) (k : String) :
    k ∈ (vs.foldl bump []).keys ↔ k ∈ vs := by
  rw [KV.mem_keys_iff, get_foldl_bump]
  by_cases h : k ∈ vs <;> simp [h]

theorem count_foldl_bump (vs : List String) (k : String) (h : k ∈ vs) :
    count (vs.foldl bump []) k = (vs.count k : Int) - 1 := by
  simp [count, get_foldl_bump, h]

end Liarslie

namespace Liarslie

/-! ## Facts about the sort and the resolution -/

theorem head?_insertStable {α : Type} (less : α → α → Bool) (x : α) (l : List α) :
    (insertStable less x l).head? =
      some (match l.head? with
        | none => x
        | some h => if less h x then h else x) := by
  cases l with
  | nil => simp [insertStable]
  | cons y t =>
    by_cases h : less y x = true
    · simp [insertStable, h]
    · simp [insertStable, h]

theorem mem_insertStable {α : Type} (less : α → α → Bool) (x y : α) (l : List α) :
    y ∈ insertStable less x l ↔ y = x ∨ y ∈ l := by
  induction l with
  | nil => simp [insertStable]
  | cons z t ih =>
    by_cases h : less z x = true
    · simp only [insertStable, h, if_true, List.mem_cons, ih]
      tauto
    · simp [insertStable, h]

theorem mem_SliceStable {α : Type} (less : α → α → Bool) (y : α) (l : List α) :
    y ∈ SliceStable less l ↔ y ∈ l := by
  induction l with
  | nil => simp [SliceStable]
  | cons x t ih =>
    have : SliceStable less (x :: t) = insertStable less x (SliceStable less t) := rfl
    rw [this, mem_insertStable, ih]
    simp

theorem SliceStable_eq_nil {α : Type} (less : α → α → Bool) (l : List α) :
    SliceStable less l = [] ↔ l = [] := by
  constructor
  · intro h
    cases l with
    | nil => rfl
    | cons x t =>
      have hx : x ∈ SliceStable less (x :: t) := (mem_SliceStable less x (x :: t)).2 (by simp)
      rw [h] at hx
      simp at hx
  · intro h
    subst h
    rfl

/-- The first element of the slice sorted by decreasing weight carries a
weight no smaller than that of every element. -/
theorem head?_SliceStable_max (w : String → Int) (l : List String) (h : String)
    (hh : (SliceStable (fun a b => decide (w a > w b)) l).head? = some h) :
    h ∈ l ∧ ∀ y ∈ l, w y ≤ w h := by
  induction l generalizing h with
  | nil => simp [SliceStable] at hh
  | cons x t ih =>
    have e : SliceStable (fun a b => decide (w a > w b)) (x :: t)
        = insertStable (fun a b => decide (w a > w b)) x
            (SliceStable (fun a b => decide (w a > w b)) t) := rfl
    rw [e, head?_insertStable] at hh
    cases ht : (SliceStable (fun a b => decide (w a > w b)) t).head? with
    | none =>
      rw [ht] at hh
      simp only [Option.some.injEq] at hh
      subst hh
      have : t = [] := by
        have := List.head?_eq_none_iff.mp ht
        exact (SliceStable_eq_nil _ t).1 this
      subst this
      simp
    | some h' =>
      rw [ht] at hh
      obtain ⟨hm, hmax⟩ := ih h' ht
      by_cases hc : w h' > w x
      · simp only [hc, decide_True, if_true, Option.some.injEq] at hh
        subst hh
        refine ⟨List.mem_cons_of_mem _ hm, ?_⟩
        intro y hy
        rcases List.mem_cons.1 hy with rfl | hy
        · exact le_of_lt hc
        · exact hmax y hy
      · simp only [hc, decide_False, Bool.false_eq_true, if_false, Option.some.injEq] at hh
        subst hh
        refine ⟨List.mem_cons_self _ _, ?_⟩
        intro y hy
        rcases List.mem_cons.1 hy with rfl | hy
        · exact le_refl _
        · exact le_trans (hmax y hy) (not_lt.1 hc)

theorem topKey_eq_none_iff (enum : KV Int → List String) (henum : RangeOrder enum)
    (m : KV Int) : topKey enum m = none ↔ m = [] := by
  unfold topKey
  rw [List.head?_eq_none_iff, SliceStable_eq_nil]
  constructor
  · intro h
    have hp := henum m
    rw [h] at hp
    have := hp.symm.eq_nil
    simpa [KV.keys] using this
  · intro h
    subst h
    have hp := henum []
    simpa [KV.keys] using hp.eq_nil

/-- The key the resolution picks is a key of the tally with a count no smaller
than that of every key of the tally. -/
theorem topKey_max (enum : KV Int → List String) (henum : RangeOrder enum)
    (m : KV Int) (k : String) (hk : topKey enum m = some k) :
    k ∈ m.keys ∧ ∀ y ∈ m.keys, count m y ≤ count m k := by
  unfold topKey at hk
  obtain ⟨hm, hmax⟩ := head?_SliceStable_max (count m) (enum m) k hk
  refine ⟨(henum m).mem_iff.1 hm, ?_⟩
  intro y hy
  exact hmax y ((henum m).mem_iff.2 hy)

end Liarslie

namespace Liarslie

/-! ## Standard mode -/

theorem standardLoop_eq (db : Vault) (id : Int) (agents : List ParticipantSet) :
    ∀ (r i : Nat) (m : KV Int), i + r ≤ agents.length →
      standardLoop db id agents i r m
        = some ((scanFrom db id i ((agents.drop i).take r)).foldl bump m) := by
  intro r
  induction r with
  | zero =>
    intro i m _
    simp [standardLoop, scanFrom]
  | succ r ih =>
    intro i m h
    have hi : i < agents.length := by omega
    have hd : agents.drop i = agents[i] :: agents.drop (i + 1) := List.drop_eq_getElem_cons hi
    have hg : agents[i]? = some agents[i] := List.getElem?_eq_getElem hi
    rw [hd]
    simp only [standardLoop, hg, List.take_succ_cons, scanFrom]
    by_cases hid : (i : Int) = id
    · rw [if_pos hid, if_pos hid]
      exact ih (i + 1) m (by omega)
    · rw [if_neg hid, if_neg hid]
      rw [ih (i + 1) _ (by omega)]
      rfl

theorem scanFrom_eq_stored (db : Vault) (id : Int) :
    ∀ (l : List ParticipantSet) (i : Nat), (∀ a ∈ l, (db.Get a.IP).isSome = true) →
      scanFrom db id i l
        = ((l.enumFrom i).filter (fun p => decide ((p.1 : Int) ≠ id))).filterMap
            (fun p => db.Get p.2.IP) := by
  intro l
  induction l with
  | nil => intro i _; simp [scanFrom]
  | cons a t ih =>
    intro i h
    have ht : ∀ b ∈ t, (db.Get b.IP).isSome = true := fun b hb => h b (List.mem_cons_of_mem _ hb)
    have ha := h a (List.mem_cons_self _ _)
    obtain ⟨v, hv⟩ := Option.isSome_iff_exists.1 ha
    by_cases hid : (i : Int) = id
    · simp [scanFrom, List.enumFrom_cons, hid, ih (i + 1) ht]
    · simp [scanFrom, List.enumFrom_cons, hid, ih (i + 1) ht, getIgnoringErr, hv]

/-- With one vault entry per roster address the standard aggregator tallies
exactly the values stored by the roster entries other than `id`. -/
theorem standardLoop_full (db : Vault) (id : Int) (agents : List ParticipantSet)
    (hvault : db.keys.Perm (agents.map ParticipantSet.IP)) :
    standardLoop db id agents 0 db.Len [] = some ((storedByOthers db id agents).foldl bump []) := by
  have hlen : db.Len = agents.length := by
    have := hvault.length_eq
    simpa [KV.keys, Vault.Len] using this
  have hget : ∀ a ∈ agents, (db.Get a.IP).isSome = true := by
    intro a ha
    have : a.IP ∈ db.keys := hvault.mem_iff.2 (List.mem_map_of_mem _ ha)
    exact (KV.mem_keys_iff db a.IP).1 this
  rw [standardLoop_eq db id agents db.Len 0 [] (by omega), hlen]
  simp only [List.drop_zero, List.take_length]
  rw [scanFrom_eq_stored db id agents 0 hget]
  rfl

/-- C2: for every roster and every vault holding exactly one entry per roster
address, if a value `x` is stored by strictly more of the participants other
than `id` than any other value, `computeNetworkValueStandard` returns `x`,
whatever order the tally is enumerated in. -/
theorem standard_returns_plurality (enum : KV Int → List String) (henum : RangeOrder enum)
    (db : Vault) (id : Int) (agents : List ParticipantSet) (numAgents : Int) (x : String)
    (hvault : db.keys.Perm (agents.map ParticipantSet.IP))
    (hx : ∀ y, y ≠ x →
      (storedByOthers db id agents).count y < (storedByOthers db id agents).count x) :
    computeNetworkValueStandard enum db id agents numAgents = some x := by
  unfold computeNetworkValueStandard
  simp only [standardLoop_full db id agents hvault]
  have hxpos : 0 < (storedByOthers db id agents).count x := by
    have := hx (x ++ "a") (by
      intro e
      have := congrArg String.length e
      rw [String.length_append] at this
      have h1 : "a".length = 1 := rfl
      omega)
    omega
  have hxmem : x ∈ storedByOthers db id agents := List.count_pos_iff.1 hxpos
  cases hk : topKey enum ((storedByOthers db id agents).foldl bump []) with
  | none =>
    have := (topKey_eq_none_iff enum henum _).1 hk
    have hm : x ∈ ((storedByOthers db id agents).foldl bump []).keys :=
      (mem_keys_foldl_bump _ x).2 hxmem
    rw [this] at hm
    simp [KV.keys] at hm
  | some k =>
    obtain ⟨hkm, hmax⟩ := topKey_max enum henum _ k hk
    have hkv : k ∈ storedByOthers db id agents := (mem_keys_foldl_bump _ k).1 hkm
    have hle := hmax x ((mem_keys_foldl_bump _ x).2 hxmem)
    rw [count_foldl_bump _ x hxmem, count_foldl_bump _ k hkv] at hle
    by_cases e : k = x
    · simp [e]
    · have := hx k e
      omega

end Liarslie

namespace Liarslie

theorem rangeOrder_enumInsertion : RangeOrder enumInsertion :=
  fun m => List.Perm.refl m.keys

theorem rangeOrder_enumReversed : RangeOrder enumReversed :=
  fun m => List.reverse_perm m.keys

/-- Scenario A, an instance of `standard_returns_plurality`: five agents, four
storing 10 and one storing 99; the poll of the first agent returns 10 also when
the tally is enumerated with 99 first. -/
theorem standard_returns_plurality_witness :
    computeNetworkValueStandard enumReversed vaultA 0 rosterA 5 = some "10" :=
  standard_returns_plurality enumReversed rangeOrder_enumReversed vaultA 0 rosterA 5 "10"
    (List.Perm.refl _)
    (by
      intro y hy
      have e : storedByOthers vaultA 0 rosterA = ["10", "99", "10", "10"] := by decide
      rw [e]
      by_cases h : y = "99"
      · subst h
        decide
      · have h1 : ("10" == y) = false := by
          simpa using Ne.symm hy
        have h2 : ("99" == y) = false := by
          simpa using Ne.symm h
        simp [List.count_cons, h1, h2])

/-- C6 (evaluation): roster of two agents, the vault holds only the entry of
the second (the first was killed), poll for the second agent. No participant
other than the polled one has a stored value, yet the poll returns the empty
string and not `"-1"`: the failed lookup of the first agent is tallied. -/
theorem standard_missing_entry_not_sentinel :
    storedByOthers vaultBirchOnly 1 rosterTwo = [] ∧
    standardLoop vaultBirchOnly 1 rosterTwo 0 vaultBirchOnly.Len [] = some [("", 0)] ∧
    computeNetworkValueStandard enumInsertion vaultBirchOnly 1 rosterTwo 2 = some "" := by
  decide

/-- C7 (evaluation): three agents all storing 10; after `kill` of the first,
the poll for the second tallies the failed lookup of the killed agent, never
reads the third, and returns the empty string, whereas the poll over the roster
without the killed agent returns 10. -/
theorem standard_after_kill_counts_killed :
    kill rosterThree vaultAllTen "amber"
        = [("/ip4/0.0.0.0/tcp/40002", "10"), ("/ip4/0.0.0.0/tcp/40003", "10")] ∧
    computeNetworkValueStandard enumInsertion (kill rosterThree vaultAllTen "amber") 1
        rosterThree 3 = some "" ∧
    computeNetworkValueStandard enumInsertion (kill rosterThree vaultAllTen "amber") 0
        (rosterThree.eraseIdx 0) 2 = some "10" := by
  decide

/-- C8 (evaluation): values 5, 5, 7, 7 stored by the four agents other than the
polled one tie in the tally; the poll returns 5 under one enumeration of the
tally and 7 under another, both admissible for `range`. -/
theorem standard_tie_depends_on_enumeration :
    RangeOrder enumInsertion ∧ RangeOrder enumReversed ∧
    standardLoop vaultTie 4 rosterA 0 vaultTie.Len [] = some [("5", 1), ("7", 1)] ∧
    computeNetworkValueStandard enumInsertion vaultTie 4 rosterA 5 = some "5" ∧
    computeNetworkValueStandard enumReversed vaultTie 4 rosterA 5 = some "7" :=
  ⟨rangeOrder_enumInsertion, rangeOrder_enumReversed, by decide, by decide, by decide⟩

/-- C1 (evaluation): scenario A, five agents, true value 10, one liar claiming
99. The truth-teller `amber` receives one message from each of the other four,
every lookup succeeds, and the aggregator resolves with 99 stored under the
address of `amber`: only values differing from the agent's own are tallied. -/
theorem expert_truth_teller_adopts_lie :
    vaultA.Get "/ip4/0.0.0.0/tcp/40001" = some "10" ∧
    (computeNetworkValueExpert enumInsertion "QmAmber" "/ip4/0.0.0.0/tcp/40001" 5
        vaultA gossipToAmber).halted = true ∧
    (computeNetworkValueExpert enumInsertion "QmAmber" "/ip4/0.0.0.0/tcp/40001" 5
        vaultA gossipToAmber).state.truthMap = [("99", 0)] ∧
    (computeNetworkValueExpert enumInsertion "QmAmber" "/ip4/0.0.0.0/tcp/40001" 5
        vaultA gossipToAmber).db.Get "/ip4/0.0.0.0/tcp/40001" = some "99" := by
  decide

/-- C5 (evaluation): a message from a new peer whose payload key is not in the
vault; the lookup fails after the vote was counted, so the vote count goes
from 0 to 1. -/
theorem expert_failed_payload_lookup_counts :
    vaultOneLiar.Get "/ip4/0.0.0.0/tcp/49999" = none ∧
    iterate enumInsertion "QmAmber" "/ip4/0.0.0.0/tcp/40001" 3 vaultOneLiar
        { voteCount := 0, truthMap := [], peerMap := [] }
        (some { ReceivedFrom := "QmBirch", Data := "/ip4/0.0.0.0/tcp/49999" })
      = Outcome.next { voteCount := 1, truthMap := [], peerMap := [("QmBirch", 1)] } := by
  decide

end Liarslie

namespace Liarslie

/-! ## Expert mode -/

theorem computeNetworkValueExpert_append (enum : KV Int → List String) (hID agent : String)
    (numAgents : Int) (db : Vault) (l : List (Option Msg)) (ev : Option Msg) :
    computeNetworkValueExpert enum hID agent numAgents db (l ++ [ev])
      = runStep enum hID agent numAgents
          (computeNetworkValueExpert enum hID agent numAgents db l) ev := by
  simp [computeNetworkValueExpert, List.foldl_append]

theorem mem_distinctPeers (hID : String) (events : List (Option Msg)) (p : String) :
    p ∈ distinctPeers hID events ↔ p ≠ hID ∧ ∃ m, some m ∈ events ∧ m.ReceivedFrom = p := by
  unfold distinctPeers
  rw [List.mem_dedup, List.mem_filter, List.mem_filterMap]
  constructor
  · rintro ⟨⟨ev, hev, hp⟩, hne⟩
    refine ⟨by simpa using hne, ?_⟩
    cases ev with
    | none => simp at hp
    | some m =>
      refine ⟨m, hev, ?_⟩
      simpa using hp
  · rintro ⟨hne, m, hm, hp⟩
    exact ⟨⟨some m, hm, by simp [hp]⟩, by simpa using hne⟩

theorem nodup_distinctPeers (hID : String) (events : List (Option Msg)) :
    (distinctPeers hID events).Nodup := by
  unfold distinctPeers
  exact List.nodup_dedup _

theorem mem_distinctPeers_append (hID : String) (l : List (Option Msg)) (ev : Option Msg)
    (p : String) :
    p ∈ distinctPeers hID (l ++ [ev]) ↔
      p ∈ distinctPeers hID l ∨ (p ≠ hID ∧ ∃ m, ev = some m ∧ m.ReceivedFrom = p) := by
  rw [mem_distinctPeers, mem_distinctPeers]
  constructor
  · rintro ⟨hne, m, hm, hp⟩
    rcases List.mem_append.1 hm with h | h
    · exact Or.inl ⟨hne, m, h, hp⟩
    · refine Or.inr ⟨hne, m, ?_, hp⟩
      exact (List.mem_singleton.1 h).symm
  · rintro (⟨hne, m, hm, hp⟩ | ⟨hne, m, hm, hp⟩)
    · exact ⟨hne, m, List.mem_append_left _ hm, hp⟩
    · exact ⟨hne, m, by simp [hm], hp⟩

theorem length_distinctPeers_append_le (hID : String) (l : List (Option Msg))
    (ev : Option Msg) :
    (distinctPeers hID l).length ≤ (distinctPeers hID (l ++ [ev])).length := by
  apply List.Subperm.length_le
  apply List.subperm_of_subset (nodup_distinctPeers hID l)
  intro p hp
  exact (mem_distinctPeers_append hID l ev p).2 (Or.inl hp)

theorem contains_iff_mem_keys (m : KV Int) (k : String) :
    m.contains k = true ↔ k ∈ m.keys := by
  rw [KV.mem_keys_iff]
  rfl

theorem quorumCheck_state (enum : KV Int → List String) (numAgents : Int) (s : ExpertState) :
    (quorumCheck enum numAgents s).state = s := by
  unfold quorumCheck
  split <;> rfl

/-- A pass through the loop body either leaves the local variables as they
were, or it records a new sender other than the host and counts one vote. -/
theorem iterate_state_cases (enum : KV Int → List String) (hID agent : String)
    (numAgents : Int) (db : Vault) (s : ExpertState) (ev : Option Msg) :
    (iterate enum hID agent numAgents db s ev).state = s ∨
    ∃ m, ev = some m ∧ m.ReceivedFrom ≠ hID ∧ m.ReceivedFrom ∉ s.peerMap.keys ∧
      (iterate enum hID agent numAgents db s ev).state.peerMap
        = s.peerMap.set m.ReceivedFrom 1 ∧
      (iterate enum hID agent numAgents db s ev).state.voteCount = s.voteCount + 1 := by
  cases ev with
  | none => left; rfl
  | some m =>
    unfold iterate
    simp only
    cases hown : db.Get agent with
    | none => left; rfl
    | some currentValue =>
      simp only
      by_cases hc : s.peerMap.contains m.ReceivedFrom = true
      · left
        rw [if_pos hc]
        rfl
      · rw [if_neg hc]
        have hnm : m.ReceivedFrom ∉ s.peerMap.keys := fun h =>
          hc ((contains_iff_mem_keys _ _).2 h)
        by_cases hh : hID ≠ m.ReceivedFrom
        · right
          rw [if_pos hh]
          refine ⟨m, rfl, Ne.symm hh, hnm, ?_⟩
          cases hpay : db.Get m.Data with
          | none => exact ⟨rfl, rfl⟩
          | some recvdValue =>
            simp only [quorumCheck_state]
            exact ⟨trivial, trivial⟩
        · left
          rw [if_neg hh]
          exact quorumCheck_state _ _ _

theorem runStep_state (enum : KV Int → List String) (hID agent : String) (numAgents : Int)
    (r : Run) (ev : Option Msg) :
    (runStep enum hID agent numAgents r ev).state
      = if r.halted = true then r.state
        else (iterate enum hID agent numAgents r.db r.state ev).state := by
  unfold runStep
  by_cases h : r.halted = true
  · simp [h]
  · simp only [h, if_false]
    cases hi : iterate enum hID agent numAgents r.db r.state ev with
    | next s => simp [Outcome.state]
    | resolved s put =>
      cases put <;> simp [Outcome.state]

/-- Throughout a run the vote count is the size of the seen-set, whose keys
are distinct senders, other than the host, of messages delivered so far. -/
theorem expert_seen_invariant (enum : KV Int → List String) (hID agent : String)
    (numAgents : Int) (db : Vault) (events : List (Option Msg)) :
    (computeNetworkValueExpert enum hID agent numAgents db events).state.voteCount
      = ((computeNetworkValueExpert enum hID agent numAgents db events).state.peerMap.length : Int) ∧
    (computeNetworkValueExpert enum hID agent numAgents db events).state.peerMap.keys.Nodup ∧
    ∀ p ∈ (computeNetworkValueExpert enum hID agent numAgents db events).state.peerMap.keys,
      p ∈ distinctPeers hID events := by
  induction events using List.reverseRecOn with
  | nil => simp [computeNetworkValueExpert, initRun, KV.keys]
  | append_singleton l ev ih =>
    obtain ⟨hvc, hnd, hsub⟩ := ih
    rw [computeNetworkValueExpert_append, runStep_state]
    by_cases hh : (computeNetworkValueExpert enum hID agent numAgents db l).halted = true
    · rw [if_pos hh]
      exact ⟨hvc, hnd, fun p hp => (mem_distinctPeers_append hID l ev p).2 (Or.inl (hsub p hp))⟩
    · rw [if_neg hh]
      rcases iterate_state_cases enum hID agent numAgents
          (computeNetworkValueExpert enum hID agent numAgents db l).db
          (computeNetworkValueExpert enum hID agent numAgents db l).state ev with h | h
      · rw [h]
        exact ⟨hvc, hnd, fun p hp => (mem_distinctPeers_append hID l ev p).2 (Or.inl (hsub p hp))⟩
      · obtain ⟨m, hev, hne, hnm, hpm, hv⟩ := h
        rw [hpm, hv]
        refine ⟨?_, KV.nodup_keys_set _ _ _ hnd, ?_⟩
        · rw [KV.length_set_of_not_mem _ _ _ hnm, hvc]
          push_cast
          rfl
        · intro p hp
          rw [mem_distinctPeers_append]
          rcases (KV.mem_keys_set _ _ _ _).1 hp with h | h
          · exact Or.inr ⟨h ▸ hne, m, hev, h.symm⟩
          · exact Or.inl (hsub p h)

/-- C4: a message whose sender is already in the seen-set leaves the vote
count, the tally and the seen-set unchanged, and at every point of every run
the vote count is at most the number of distinct senders, other than the host,
of the messages delivered so far. -/
theorem expert_counts_peer_once (enum : KV Int → List String) (hID agent : String)
    (numAgents : Int) (db : Vault) :
    (∀ (s : ExpertState) (m : Msg), s.peerMap.contains m.ReceivedFrom = true →
      iterate enum hID agent numAgents db s (some m) = Outcome.next s) ∧
    ∀ events : List (Option Msg),
      (computeNetworkValueExpert enum hID agent numAgents db events).state.voteCount
        ≤ ((distinctPeers hID events).length : Int) := by
  constructor
  · intro s m hc
    unfold iterate
    cases hown : db.Get agent with
    | none => rfl
    | some currentValue => simp [hc]
  · intro events
    obtain ⟨hvc, hnd, hsub⟩ := expert_seen_invariant enum hID agent numAgents db events
    rw [hvc]
    have hl : (computeNetworkValueExpert enum hID agent numAgents db events).state.peerMap.length
        = (computeNetworkValueExpert enum hID agent numAgents db events).state.peerMap.keys.length := by
      simp [KV.keys]
    rw [hl]
    exact_mod_cast (List.subperm_of_subset hnd hsub).length_le

/-- When the lookup of the local agent's own value fails, the message is
skipped and the local variables stay as they were. -/
theorem iterate_own_lookup_fails (enum : KV Int → List String) (hID agent : String)
    (numAgents : Int) (db : Vault) (s : ExpertState) (ev : Option Msg)
    (hown : db.Get agent = none) :
    iterate enum hID agent numAgents db s ev = Outcome.next s := by
  cases ev with
  | none => rfl
  | some m => simp [iterate, hown]

end Liarslie

namespace Liarslie

theorem runStep_of_halted (enum : KV Int → List String) (hID agent : String) (numAgents : Int)
    (r : Run) (ev : Option Msg) (h : r.halted = true) :
    runStep enum hID agent numAgents r ev = r := by
  simp [runStep, h]

theorem runStep_of_next (enum : KV Int → List String) (hID agent : String) (numAgents : Int)
    (r : Run) (ev : Option Msg) (s : ExpertState) (h : r.halted = false)
    (hi : iterate enum hID agent numAgents r.db r.state ev = Outcome.next s) :
    runStep enum hID agent numAgents r ev = { state := s, db := r.db, halted := false } := by
  simp [runStep, h, hi]

theorem runStep_of_resolved (enum : KV Int → List String) (hID agent : String)
    (numAgents : Int) (r : Run) (ev : Option Msg) (s : ExpertState) (put : Option String)
    (h : r.halted = false)
    (hi : iterate enum hID agent numAgents r.db r.state ev = Outcome.resolved s put) :
    (runStep enum hID agent numAgents r ev).halted = true ∧
    (runStep enum hID agent numAgents r ev).state = s ∧
    (runStep enum hID agent numAgents r ev).db
      = Option.elim put r.db (fun k => r.db.Put agent k) := by
  cases put <;> simp [runStep, h, hi]

/-- The loop body when both vault lookups succeed. -/
theorem iterate_of_lookups (enum : KV Int → List String) (hID agent : String)
    (numAgents : Int) (db : Vault) (s : ExpertState) (m : Msg) (currentValue recvdValue : String)
    (hown : db.Get agent = some currentValue) (hpay : db.Get m.Data = some recvdValue) :
    iterate enum hID agent numAgents db s (some m)
      = if s.peerMap.contains m.ReceivedFrom = true then Outcome.next s
        else if hID ≠ m.ReceivedFrom then
          quorumCheck enum numAgents
            { voteCount := s.voteCount + 1
              truthMap :=
                if currentValue ≠ recvdValue ∧ recvdValue ≠ "0" then bump s.truthMap recvdValue
                else s.truthMap
              peerMap := s.peerMap.set m.ReceivedFrom 1 }
        else quorumCheck enum numAgents s := by
  simp [iterate, hown, hpay]

/-- With every lookup succeeding and at least two agents: while the loop runs
the vault is untouched, the seen-set holds exactly the senders delivered so
far and the vote count is below the quorum; once the loop is left the vote
count is the quorum. -/
theorem expert_quorum_invariant (enum : KV Int → List String) (hID agent : String)
    (numAgents : Int) (db : Vault) (events : List (Option Msg))
    (hN : 2 ≤ numAgents) (hown : (db.Get agent).isSome = true)
    (hpay : ∀ m, some m ∈ events → (db.Get m.Data).isSome = true) :
    ((computeNetworkValueExpert enum hID agent numAgents db events).halted = false →
      (computeNetworkValueExpert enum hID agent numAgents db events).db = db ∧
      (∀ p, p ∈ (computeNetworkValueExpert enum hID agent numAgents db events).state.peerMap.keys
        ↔ p ∈ distinctPeers hID events) ∧
      (computeNetworkValueExpert enum hID agent numAgents db events).state.voteCount
        < numAgents - 1) ∧
    ((computeNetworkValueExpert enum hID agent numAgents db events).halted = true →
      (computeNetworkValueExpert enum hID agent numAgents db events).state.voteCount
        = numAgents - 1 ∧
      numAgents - 1 ≤ ((distinctPeers hID events).length : Int)) := by
  induction events using List.reverseRecOn with
  | nil =>
    refine ⟨fun _ => ⟨rfl, ?_, ?_⟩, fun h => ?_⟩
    · intro p
      simp [computeNetworkValueExpert, initRun, KV.keys, distinctPeers]
    · simp only [computeNetworkValueExpert, initRun, List.foldl_nil]
      omega
    · simp [computeNetworkValueExpert, initRun] at h
  | append_singleton l ev ih =>
    have hpay' : ∀ m, some m ∈ l → (db.Get m.Data).isSome = true :=
      fun m hm => hpay m (List.mem_append_left _ hm)
    obtain ⟨ihrun, ihhalt⟩ := ih hpay'
    obtain ⟨hvc, hnd, -⟩ := expert_seen_invariant enum hID agent numAgents db l
    rw [computeNetworkValueExpert_append]
    generalize computeNetworkValueExpert enum hID agent numAgents db l = R at *
    cases hh : R.halted with
    | true =>
      rw [runStep_of_halted _ _ _ _ _ _ hh]
      obtain ⟨h1, h2⟩ := ihhalt hh
      refine ⟨fun h => ?_, fun _ => ⟨h1, le_trans h2 ?_⟩⟩
      · rw [hh] at h
        cases h
      · exact_mod_cast length_distinctPeers_append_le hID l ev
    | false =>
      obtain ⟨hdb, hmem, hlt⟩ := ihrun hh
      cases ev with
      | none =>
        rw [runStep_of_next _ _ _ _ R none R.state hh rfl]
        refine ⟨fun _ => ⟨hdb, ?_, hlt⟩, fun h => by cases h⟩
        intro p
        rw [hmem p, mem_distinctPeers_append]
        simp
      | some m =>
        obtain ⟨cv, hcv⟩ := Option.isSome_iff_exists.1 hown
        obtain ⟨rv, hrv⟩ := Option.isSome_iff_exists.1 (hpay m (by simp))
        have hit := iterate_of_lookups enum hID agent numAgents R.db R.state m cv rv
          (by rw [hdb]; exact hcv) (by rw [hdb]; exact hrv)
        by_cases hc : R.state.peerMap.contains m.ReceivedFrom = true
        · rw [if_pos hc] at hit
          rw [runStep_of_next _ _ _ _ R _ R.state hh hit]
          refine ⟨fun _ => ⟨hdb, ?_, hlt⟩, fun h => by cases h⟩
          intro p
          rw [mem_distinctPeers_append]
          constructor
          · intro hp
            exact Or.inl ((hmem p).1 hp)
          · rintro (hp | ⟨-, m', hm', hp⟩)
            · exact (hmem p).2 hp
            · cases hm'
              rw [← hp]
              exact (contains_iff_mem_keys _ _).1 hc
        · rw [if_neg hc] at hit
          have hnm : m.ReceivedFrom ∉ R.state.peerMap.keys := fun h =>
            hc ((contains_iff_mem_keys _ _).2 h)
          by_cases hself : hID ≠ m.ReceivedFrom
          · rw [if_pos hself] at hit
            have hmem' : ∀ p, p ∈ (R.state.peerMap.set m.ReceivedFrom 1).keys
                ↔ p ∈ distinctPeers hID (l ++ [some m]) := by
              intro p
              rw [KV.mem_keys_set, mem_distinctPeers_append, hmem p]
              constructor
              · rintro (h | h)
                · exact Or.inr ⟨h ▸ Ne.symm hself, m, rfl, h.symm⟩
                · exact Or.inl h
              · rintro (h | ⟨-, m', hm', hp⟩)
                · exact Or.inr h
                · cases hm'
                  exact Or.inl hp.symm
            by_cases hq : R.state.voteCount + 1 = numAgents - 1
            · unfold quorumCheck at hit
              rw [if_pos hq] at hit
              obtain ⟨e1, e2, -⟩ := runStep_of_resolved _ _ _ _ R _ _ _ hh hit
              refine ⟨fun h => ?_, fun _ => ?_⟩
              · rw [e1] at h
                cases h
              · rw [e2]
                refine ⟨hq, ?_⟩
                have hperm := (List.perm_ext_iff_of_nodup
                  (KV.nodup_keys_set R.state.peerMap m.ReceivedFrom 1 hnd)
                  (nodup_distinctPeers hID (l ++ [some m]))).2 hmem'
                have hlen := hperm.length_eq
                have hk : (R.state.peerMap.set m.ReceivedFrom 1).keys.length
                    = R.state.peerMap.length + 1 := by
                  rw [← KV.length_set_of_not_mem _ _ (1 : Int) hnm]
                  simp [KV.keys]
                rw [← hq, hvc, ← hlen, hk]
                push_cast
                rfl
            · unfold quorumCheck at hit
              rw [if_neg hq] at hit
              rw [runStep_of_next _ _ _ _ R _ _ hh hit]
              refine ⟨fun _ => ⟨hdb, hmem', ?_⟩, fun h => by cases h⟩
              simp only
              omega
          · rw [if_neg hself] at hit
            unfold quorumCheck at hit
            rw [if_neg (ne_of_lt hlt)] at hit
            rw [runStep_of_next _ _ _ _ R _ R.state hh hit]
            refine ⟨fun _ => ⟨hdb, ?_, hlt⟩, fun h => by cases h⟩
            intro p
            rw [hmem p, mem_distinctPeers_append]
            constructor
            · exact Or.inl
            · rintro (h | ⟨hne, m', hm', hp⟩)
              · exact h
              · cases hm'
                exact absurd (hp ▸ not_not.1 hself) (Ne.symm hne)

end Liarslie

namespace Liarslie

/-- C3: with every vault lookup succeeding and at least two agents, after any
sequence of events the vote count is the number of distinct senders other than
the host delivered so far, capped at `numAgents - 1`, and the loop has been left
exactly when that number has reached `numAgents - 1`: it never resolves below
the quorum and never counts a further vote. -/
theorem expert_halts_exactly_at_quorum (enum : KV Int → List String) (hID agent : String)
    (numAgents : Int) (db : Vault) (events : List (Option Msg))
    (hN : 2 ≤ numAgents) (hown : (db.Get agent).isSome = true)
    (hpay : ∀ m, some m ∈ events → (db.Get m.Data).isSome = true) :
    (computeNetworkValueExpert enum hID agent numAgents db events).state.voteCount
      = min (numAgents - 1) ((distinctPeers hID events).length : Int) ∧
    ((computeNetworkValueExpert enum hID agent numAgents db events).halted = true
      ↔ numAgents - 1 ≤ ((distinctPeers hID events).length : Int)) := by
  obtain ⟨hrun, hhalt⟩ :=
    expert_quorum_invariant enum hID agent numAgents db events hN hown hpay
  obtain ⟨hvc, hnd, -⟩ := expert_seen_invariant enum hID agent numAgents db events
  cases hh : (computeNetworkValueExpert enum hID agent numAgents db events).halted with
  | true =>
    obtain ⟨h1, h2⟩ := hhalt hh
    refine ⟨?_, fun _ => h2, fun _ => rfl⟩
    rw [h1, min_eq_left h2]
  | false =>
    obtain ⟨-, hmem, hlt⟩ := hrun hh
    have hperm := (List.perm_ext_iff_of_nodup hnd (nodup_distinctPeers hID events)).2 hmem
    have hlen := hperm.length_eq
    have hk : (computeNetworkValueExpert enum hID agent numAgents db events).state.peerMap.keys.length
        = (computeNetworkValueExpert enum hID agent numAgents db events).state.peerMap.length := by
      simp [KV.keys]
    have hv : (computeNetworkValueExpert enum hID agent numAgents db events).state.voteCount
        = ((distinctPeers hID events).length : Int) := by
      rw [hvc, ← hlen, hk]
    rw [hv] at hlt
    refine ⟨?_, (fun h => by cases h), fun h => ?_⟩
    · rw [hv, min_eq_right (le_of_lt hlt)]
    · omega

/-- An instance of `expert_halts_exactly_at_quorum`: five agents, gossip with a
failed `Next`, duplicates and a message of the host itself; the loop is left
with four votes counted. -/
theorem expert_halts_exactly_at_quorum_witness :
    (computeNetworkValueExpert enumInsertion "QmAmber" "/ip4/0.0.0.0/tcp/40001" 5 vaultA
        gossipNoisy).state.voteCount
      = min (5 - 1) ((distinctPeers "QmAmber" gossipNoisy).length : Int) ∧
    ((computeNetworkValueExpert enumInsertion "QmAmber" "/ip4/0.0.0.0/tcp/40001" 5 vaultA
        gossipNoisy).halted = true
      ↔ (5 : Int) - 1 ≤ ((distinctPeers "QmAmber" gossipNoisy).length : Int)) :=
  expert_halts_exactly_at_quorum enumInsertion "QmAmber" "/ip4/0.0.0.0/tcp/40001" 5 vaultA
    gossipNoisy (by decide) (by decide)
    (by
      intro m hm
      have hall : gossipNoisy.all (fun ev =>
          match ev with
          | some m => (vaultA.Get m.Data).isSome
          | none => true) = true := by decide
      exact List.all_eq_true.1 hall (some m) hm)

theorem quorumCheck_resolved (enum : KV Int → List String) (numAgents : Int)
    (s s' : ExpertState) (put : Option String)
    (h : quorumCheck enum numAgents s = Outcome.resolved s' put) :
    put = topKey enum s'.truthMap ∧ s'.voteCount = numAgents - 1 := by
  unfold quorumCheck at h
  by_cases hq : s.voteCount = numAgents - 1
  · rw [if_pos hq] at h
    cases h
    exact ⟨rfl, hq⟩
  · rw [if_neg hq] at h
    cases h

/-- A resolving pass through the loop body has the quorum of votes and hands
to `Put` the first key of its sorted tally. -/
theorem iterate_resolved (enum : KV Int → List String) (hID agent : String)
    (numAgents : Int) (db : Vault) (s s' : ExpertState) (ev : Option Msg) (put : Option String)
    (h : iterate enum hID agent numAgents db s ev = Outcome.resolved s' put) :
    put = topKey enum s'.truthMap ∧ s'.voteCount = numAgents - 1 := by
  cases ev with
  | none => cases h
  | some m =>
    unfold iterate at h
    simp only at h
    cases hown : db.Get agent with
    | none =>
      rw [hown] at h
      cases h
    | some currentValue =>
      rw [hown] at h
      simp only at h
      by_cases hc : s.peerMap.contains m.ReceivedFrom = true
      · rw [if_pos hc] at h
        cases h
      · rw [if_neg hc] at h
        by_cases hh : hID ≠ m.ReceivedFrom
        · rw [if_pos hh] at h
          cases hpay : db.Get m.Data with
          | none =>
            rw [hpay] at h
            cases h
          | some recvdValue =>
            rw [hpay] at h
            exact quorumCheck_resolved enum numAgents _ s' put h
        · rw [if_neg hh] at h
          exact quorumCheck_resolved enum numAgents _ s' put h

/-- C9: whenever the aggregator resolves with a non-empty tally, the vote count
is `numAgents - 1` and the value it `Put`s under the local agent's address is a
key of the tally whose count is at least the count of every key of the tally. -/
theorem expert_puts_top_of_tally (enum : KV Int → List String) (henum : RangeOrder enum)
    (hID agent : String) (numAgents : Int) (r : Run) (ev : Option Msg)
    (hrun : r.halted = false)
    (hres : (runStep enum hID agent numAgents r ev).halted = true)
    (hne : (runStep enum hID agent numAgents r ev).state.truthMap ≠ []) :
    (runStep enum hID agent numAgents r ev).state.voteCount = numAgents - 1 ∧
    ∃ k, (runStep enum hID agent numAgents r ev).db = r.db.Put agent k ∧
      k ∈ (runStep enum hID agent numAgents r ev).state.truthMap.keys ∧
      ∀ y ∈ (runStep enum hID agent numAgents r ev).state.truthMap.keys,
        count (runStep enum hID agent numAgents r ev).state.truthMap y
          ≤ count (runStep enum hID agent numAgents r ev).state.truthMap k := by
  cases hi : iterate enum hID agent numAgents r.db r.state ev with
  | next s =>
    rw [runStep_of_next _ _ _ _ r ev s hrun hi] at hres
    cases hres
  | resolved s put =>
    obtain ⟨-, e2, e3⟩ := runStep_of_resolved _ _ _ _ r ev s put hrun hi
    obtain ⟨hput, hq⟩ := iterate_resolved enum hID agent numAgents r.db r.state s ev put hi
    rw [e2] at hne ⊢
    refine ⟨hq, ?_⟩
    cases hk : topKey enum s.truthMap with
    | none => exact absurd ((topKey_eq_none_iff enum henum _).1 hk) hne
    | some k =>
      rw [hput, hk] at e3
      obtain ⟨hm, hmax⟩ := topKey_max enum henum s.truthMap k hk
      exact ⟨k, by simpa using e3, hm, hmax⟩

/-- An instance of `expert_puts_top_of_tally`: in a network of three with one
liar, the second vote resolves the aggregator of `amber`. -/
theorem expert_puts_top_of_tally_witness :
    (runStep enumReversed "QmAmber" "/ip4/0.0.0.0/tcp/40001" 3 runAfterBirch
        (some { ReceivedFrom := "QmCedar", Data := "/ip4/0.0.0.0/tcp/40003" })).state.voteCount
      = 3 - 1 ∧
    ∃ k, (runStep enumReversed "QmAmber" "/ip4/0.0.0.0/tcp/40001" 3 runAfterBirch
        (some { ReceivedFrom := "QmCedar", Data := "/ip4/0.0.0.0/tcp/40003" })).db
        = runAfterBirch.db.Put "/ip4/0.0.0.0/tcp/40001" k ∧
      k ∈ (runStep enumReversed "QmAmber" "/ip4/0.0.0.0/tcp/40001" 3 runAfterBirch
        (some { ReceivedFrom := "QmCedar", Data := "/ip4/0.0.0.0/tcp/40003" })).state.truthMap.keys ∧
      ∀ y ∈ (runStep enumReversed "QmAmber" "/ip4/0.0.0.0/tcp/40001" 3 runAfterBirch
        (some { ReceivedFrom := "QmCedar", Data := "/ip4/0.0.0.0/tcp/40003" })).state.truthMap.keys,
        count (runStep enumReversed "QmAmber" "/ip4/0.0.0.0/tcp/40001" 3 runAfterBirch
          (some { ReceivedFrom := "QmCedar", Data := "/ip4/0.0.0.0/tcp/40003" })).state.truthMap y
          ≤ count (runStep enumReversed "QmAmber" "/ip4/0.0.0.0/tcp/40001" 3 runAfterBirch
          (some { ReceivedFrom := "QmCedar", Data := "/ip4/0.0.0.0/tcp/40003" })).state.truthMap k :=
  expert_puts_top_of_tally enumReversed rangeOrder_enumReversed "QmAmber"
    "/ip4/0.0.0.0/tcp/40001" 3 runAfterBirch
    (some { ReceivedFrom := "QmCedar", Data := "/ip4/0.0.0.0/tcp/40003" })
    (by decide) (by decide) (by decide)

end Liarslie

namespace Liarslie

/-! ## The standard-mode `play` command -/

theorem le_foldl_max (l : List Int) (a : Int) : a ≤ l.foldl max a := by
  induction l generalizing a with
  | nil => exact le_refl a
  | cons x t ih => exact le_trans (le_max_left a x) (ih (max a x))

theorem le_foldl_max_of_mem (l : List Int) (a x : Int) (hx : x ∈ l) : x ≤ l.foldl max a := by
  induction l generalizing a with
  | nil => cases hx
  | cons y t ih =>
    rcases List.mem_cons.1 hx with h | h
    · subst h
      exact le_trans (le_max_right a x) (le_foldl_max t (max a x))
    · exact ih (max a y) h

theorem foldl_max_eq_or_mem (l : List Int) (a : Int) :
    l.foldl max a = a ∨ l.foldl max a ∈ l := by
  induction l generalizing a with
  | nil => exact Or.inl rfl
  | cons x t ih =>
    rcases ih (max a x) with h | h
    · rcases max_choice a x with hm | hm
      · left
        simp only [List.foldl_cons]
        rw [h, hm]
      · right
        simp only [List.foldl_cons]
        rw [h, hm]
        exact List.mem_cons_self _ _
    · exact Or.inr (List.mem_cons_of_mem _ h)

/-- The task loop of `play` keeps the running maximum of the parsed task
results. -/
theorem playLoop_eq (enums : Nat → KV Int → List String) (db : Vault)
    (agents : List ParticipantSet) (numAgents : Int) (res : Nat → String) :
    ∀ (r i : Nat) (tv : Int),
      (∀ j, i ≤ j → j < i + r →
        RunAsStandard (enums j) db (j : Int) agents numAgents = some (res j)) →
      playLoop enums db agents numAgents i r tv
        = some (((List.range' i r).map (fun j => (Atoi (res j)).1)).foldl max tv) := by
  intro r
  induction r with
  | zero =>
    intro i tv _
    simp [playLoop]
  | succ r ih =>
    intro i tv h
    have hi := h i (le_refl i) (by omega)
    have hrest : ∀ j, i + 1 ≤ j → j < i + 1 + r →
        RunAsStandard (enums j) db (j : Int) agents numAgents = some (res j) :=
      fun j h1 h2 => h j (by omega) (by omega)
    simp only [playLoop, hi, List.range'_succ, List.map_cons, List.foldl_cons]
    by_cases hlt : tv < (Atoi (res i)).1
    · rw [if_pos hlt, ih (i + 1) _ hrest, max_eq_right (le_of_lt hlt)]
    · rw [if_neg hlt, ih (i + 1) _ hrest, max_eq_left (not_lt.1 hlt)]

/-- C10 (amended): when every task returns the sentinel `"-1"` or the decimal
text of a non-negative integer, `play` (tasks taken one after another) reports
"no data" exactly when every task returned the sentinel, which includes the
empty roster, and otherwise reports a value that some task returned and that
is the maximum of the integers returned by the tasks. -/
theorem play_reports_max_of_resolved (enums : Nat → KV Int → List String) (db : Vault)
    (agents : List ParticipantSet) (res : Nat → String)
    (hres : ∀ i, i < agents.length →
      RunAsStandard (enums i) db (i : Int) agents (agents.length : Int) = some (res i))
    (hwf : ∀ i, i < agents.length →
      res i = "-1" ∨ ((Atoi (res i)).2 = true ∧ 0 ≤ (Atoi (res i)).1)) :
    (play enums db agents = some Report.noData ↔ ∀ i, i < agents.length → res i = "-1") ∧
    (∀ v, play enums db agents = some (Report.value v) →
      (∃ i, i < agents.length ∧ res i ≠ "-1" ∧ Atoi (res i) = (v, true)) ∧
      ∀ i, i < agents.length → (Atoi (res i)).1 ≤ v) ∧
    ∃ rep, play enums db agents = some rep := by
  have hloop := playLoop_eq enums db agents (agents.length : Int) res agents.length 0 (-1)
    (fun j _ hj => hres j (by omega))
  have hsent : Atoi "-1" = (-1, true) := by decide
  have hmemv : ∀ i, i < agents.length →
      (Atoi (res i)).1 ∈ (List.range' 0 agents.length).map (fun j => (Atoi (res j)).1) := by
    intro i hi
    exact List.mem_map.2 ⟨i, List.mem_range'_1.2 ⟨Nat.zero_le i, by omega⟩, rfl⟩
  have hle : ∀ i, i < agents.length →
      (Atoi (res i)).1
        ≤ ((List.range' 0 agents.length).map (fun j => (Atoi (res j)).1)).foldl max (-1) :=
    fun i hi => le_foldl_max_of_mem _ _ _ (hmemv i hi)
  have hplay : play enums db agents
      = if ((List.range' 0 agents.length).map (fun j => (Atoi (res j)).1)).foldl max (-1) < 0
        then some Report.noData
        else some (Report.value
          (((List.range' 0 agents.length).map (fun j => (Atoi (res j)).1)).foldl max (-1))) := by
    simp only [play, hloop]
  generalize hT :
    ((List.range' 0 agents.length).map (fun j => (Atoi (res j)).1)).foldl max (-1) = T at *
  have hcases := foldl_max_eq_or_mem
    ((List.range' 0 agents.length).map (fun j => (Atoi (res j)).1)) (-1)
  rw [hT] at hcases
  refine ⟨⟨fun h i hi => ?_, fun h => ?_⟩, fun v hv => ?_, ?_⟩
  · have hneg : T < 0 := by
      by_contra hn
      rw [hplay, if_neg hn] at h
      cases h
    rcases hwf i hi with h1 | ⟨-, h2⟩
    · exact h1
    · have := hle i hi
      omega
  · have hneg : T < 0 := by
      rcases hcases with h1 | h1
      · omega
      · obtain ⟨j, hj, hj'⟩ := List.mem_map.1 h1
        have hjlt : j < agents.length := by
          have := (List.mem_range'_1.1 hj).2
          omega
        rw [h j hjlt, hsent] at hj'
        simp only at hj'
        omega
    rw [hplay, if_pos hneg]
  · have hnn : ¬ T < 0 := by
      intro hn
      rw [hplay, if_pos hn] at hv
      cases hv
    rw [hplay, if_neg hnn] at hv
    have hvT : T = v := by
      simpa using hv
    subst hvT
    refine ⟨?_, hle⟩
    rcases hcases with h1 | h1
    · omega
    · obtain ⟨j, hj, hj'⟩ := List.mem_map.1 h1
      have hjlt : j < agents.length := by
        have := (List.mem_range'_1.1 hj).2
        omega
      have hne : res j ≠ "-1" := by
        intro e
        rw [e, hsent] at hj'
        simp only at hj'
        omega
      refine ⟨j, hjlt, hne, ?_⟩
      rcases hwf j hjlt with h2 | ⟨h2, -⟩
      · exact absurd h2 hne
      · exact Prod.ext hj' h2
  · rw [hplay]
    by_cases hn : T < 0
    · exact ⟨_, if_pos hn⟩
    · exact ⟨_, if_neg hn⟩

/-- An instance of `play_reports_max_of_resolved`, scenario A: every task
returns 10 and `play` reports 10. -/
theorem play_reports_max_of_resolved_witness :
    (play (fun _ => enumInsertion) vaultA rosterA = some Report.noData
      ↔ ∀ i, i < rosterA.length → (fun _ : Nat => "10") i = "-1") ∧
    (∀ v, play (fun _ => enumInsertion) vaultA rosterA = some (Report.value v) →
      (∃ i, i < rosterA.length ∧ (fun _ : Nat => "10") i ≠ "-1" ∧
        Atoi ((fun _ : Nat => "10") i) = (v, true)) ∧
      ∀ i, i < rosterA.length → (Atoi ((fun _ : Nat => "10") i)).1 ≤ v) ∧
    ∃ rep, play (fun _ => enumInsertion) vaultA rosterA = some rep :=
  play_reports_max_of_resolved (fun _ => enumInsertion) vaultA rosterA (fun _ => "10")
    (by
      intro i hi
      have h5 : rosterA.length = 5 := rfl
      rw [h5] at hi
      interval_cases i <;> decide)
    (by
      intro i _
      right
      have h10 : (Atoi "10").2 = true ∧ 0 ≤ (Atoi "10").1 := by decide
      exact h10)

/-- C10 (counterexample): two agents both storing -5. The roster is not empty,
each task tallies a vote and returns -5, the maximum of the returned integers
is -5, and `play` reports "no data". -/
theorem play_negative_values_no_data :
    rosterTwo ≠ [] ∧
    standardLoop vaultNegative 0 rosterTwo 0 vaultNegative.Len [] = some [("-5", 0)] ∧
    RunAsStandard enumInsertion vaultNegative 0 rosterTwo 2 = some "-5" ∧
    RunAsStandard enumInsertion vaultNegative 1 rosterTwo 2 = some "-5" ∧
    Atoi "-5" = (-5, true) ∧
    play (fun _ => enumInsertion) vaultNegative rosterTwo = some Report.noData := by
  decide

end Liarslie

namespace Liarslie

/-! ## Where the standard aggregator does return the sentinel or a fixed value -/

/-- On an empty vault the standard aggregator returns the sentinel `"-1"`. -/
theorem standard_empty_vault_sentinel (enum : KV Int → List String) (henum : RangeOrder enum)
    (id : Int) (agents : List ParticipantSet) (numAgents : Int) :
    computeNetworkValueStandard enum [] id agents numAgents = some "-1" := by
  have h : topKey enum [] = none := (topKey_eq_none_iff enum henum []).2 rfl
  simp [computeNetworkValueStandard, Vault.Len, standardLoop, h]

/-- A key whose count is strictly above that of every other key of the tally
is picked under every enumeration of the tally. -/
theorem topKey_of_strict_max (enum : KV Int → List String) (henum : RangeOrder enum)
    (m : KV Int) (x : String) (hx : x ∈ m.keys)
    (hmax : ∀ y ∈ m.keys, y ≠ x → count m y < count m x) :
    topKey enum m = some x := by
  cases hk : topKey enum m with
  | none =>
    have := (topKey_eq_none_iff enum henum m).1 hk
    rw [this] at hx
    simp [KV.keys] at hx
  | some k =>
    obtain ⟨hkm, hle⟩ := topKey_max enum henum m k hk
    by_cases e : k = x
    · rw [e]
    · have h1 := hmax k hkm e
      have h2 := hle x hx
      omega

end Liarslie

namespace Liarslie

/-! ## Index range of the standard aggregator -/

/-- The scanning loop finishes exactly when every index it visits lies within
the roster. -/
theorem standardLoop_isSome_iff (db : Vault) (id : Int) (agents : List ParticipantSet) :
    ∀ (r i : Nat) (m : KV Int),
      (standardLoop db id agents i r m).isSome = true ↔ r = 0 ∨ i + r ≤ agents.length := by
  intro r
  induction r with
  | zero =>
    intro i m
    simp [standardLoop]
  | succ r ih =>
    intro i m
    by_cases hi : i < agents.length
    · have hg : agents[i]? = some agents[i] := List.getElem?_eq_getElem hi
      simp only [standardLoop, hg]
      by_cases hid : (i : Int) = id
      · rw [if_pos hid, ih (i + 1) m]
        omega
      · rw [if_neg hid, ih (i + 1) _]
        omega
    · have hg : agents[i]? = none := List.getElem?_eq_none (by omega)
      simp only [standardLoop, hg]
      constructor
      · intro h
        cases h
      · intro h
        omega

/-- C13: `computeNetworkValueStandard` indexes the roster at every `i` below
the vault's key count `db.Len()`, whatever `numAgents` is: it returns a value
exactly when `db.Len() <= len(agents)`, the out-of-range index occurs exactly
when the vault holds more keys than the roster has entries, and the result
does not depend on `numAgents`. -/
theorem standard_in_range_iff_len_le (enum : KV Int → List String) (db : Vault) (id : Int)
    (agents : List ParticipantSet) (numAgents : Int) :
    ((computeNetworkValueStandard enum db id agents numAgents).isSome = true
      ↔ db.Len ≤ agents.length) ∧
    (computeNetworkValueStandard enum db id agents numAgents = none
      ↔ agents.length < db.Len) ∧
    ∀ n : Int, computeNetworkValueStandard enum db id agents n
      = computeNetworkValueStandard enum db id agents numAgents := by
  have hloop := standardLoop_isSome_iff db id agents db.Len 0 []
  have hsome : (computeNetworkValueStandard enum db id agents numAgents).isSome = true
      ↔ db.Len ≤ agents.length := by
    cases hl : standardLoop db id agents 0 db.Len [] with
    | none =>
      rw [hl] at hloop
      have hgt : ¬ db.Len ≤ agents.length := by
        intro hle
        have := hloop.2 (Or.inr (by omega))
        cases this
      simp only [computeNetworkValueStandard, hl, Option.isSome_none, Bool.false_eq_true,
        false_iff]
      exact hgt
    | some truthMap =>
      rw [hl] at hloop
      have hle : db.Len ≤ agents.length := by
        have := hloop.1 rfl
        omega
      simp only [computeNetworkValueStandard, hl]
      cases topKey enum truthMap <;> simp [hle]
  refine ⟨hsome, ?_, fun _ => rfl⟩
  rw [← not_le, ← hsome]
  cases computeNetworkValueStandard enum db id agents numAgents <;> simp

/-! ## The vault handle -/

/-- Once `GetInstance` has opened the store, the handle it hands out is
closed, on the first call and on every later one. -/
theorem getInstanceTimes_closed (n : Nat) :
    GetInstanceTimes true (n + 1) { db := none } = some { db := some { closed := true } } := by
  have hfix : ∀ k : Nat, GetInstanceTimes true k { db := some { closed := true } }
      = some { db := some { closed := true } } := by
    intro k
    induction k with
    | zero => rfl
    | succ k ih => simpa [GetInstanceTimes, GetInstance] using ih
  have hfirst : GetInstance true { db := none } = some { db := some { closed := true } } := rfl
  simp only [GetInstanceTimes, hfirst]
  exact hfix n

/-- C11 (evaluation): in a fresh process whose store opens without error, the
first call of `GetInstance` hands out a handle on which the deferred `Close`
has already run, and the second call hands out that same closed handle. -/
theorem getInstance_hands_out_closed_handle :
    Bitcask.Open true = some { closed := false } ∧
    GetInstance true { db := none } = some { db := some { closed := true } } ∧
    GetInstanceTimes true 2 { db := none } = some { db := some { closed := true } } := by
  decide

/-! ## Registering agents -/

theorem length_addAgentsLoop (nameOf : Int → String) (value falseValue numTruthSpeakers : Int) :
    ∀ (remaining : Nat) (i port : Int) (data : List ParticipantSet) (db : Vault),
      (addAgentsLoop nameOf value falseValue numTruthSpeakers i remaining port data db).1.length
        = data.length + remaining := by
  intro remaining
  induction remaining with
  | zero =>
    intro i port data db
    simp [addAgentsLoop]
  | succ r ih =>
    intro i port data db
    simp only [addAgentsLoop]
    rw [ih]
    simp only [List.length_append, List.length_singleton]
    omega

/-- The roster written back by `AddAgentsToConfig` grows by `numAgents` entries
on an empty vault and by `numAgents - 1` entries on a vault that holds keys. -/
theorem length_AddAgentsToConfig (nameOf : Int → String) (port : Int)
    (numAgents value falseValue numTruthSpeakers : Int)
    (data : List ParticipantSet) (db : Vault) :
    (AddAgentsToConfig nameOf port numAgents value falseValue numTruthSpeakers data db).1.length
      = data.length + (if db.Len = 0 then numAgents else numAgents - 1).toNat := by
  unfold AddAgentsToConfig
  simp only [length_addAgentsLoop]
  by_cases h : db.Len = 0
  · simp [h]
  · have hpos : ((db.Len : Nat) : Int) > 0 := by omega
    simp only [hpos, if_true, h, if_false]
    congr 2
    omega

/-- C12 (evaluation): `extend` with `numAgents = 3` on the vault and roster of
scenario A, which hold five agents, writes back a roster of seven: two new
participants, seeded 6 and 7. On an empty vault the same call appends three. -/
theorem addAgents_extend_appends_one_less :
    vaultA.Len = 5 ∧
    (AddAgentsToConfig nameOfSeed 40006 3 10 49 2 rosterA vaultA).1.length = rosterA.length + 2 ∧
    (AddAgentsToConfig nameOfSeed 40006 3 10 49 2 rosterA vaultA).1.map ParticipantSet.USER
      = rosterA.map ParticipantSet.USER ++ ["agent-6", "agent-7"] ∧
    (AddAgentsToConfig nameOfSeed 40001 3 10 49 2 [] []).1.length = 3 := by
  decide

end Liarslie
